import Mathlib

/-!
Verification of the query-to-candidate ranking pipeline of
`pythonx/clap/fuzzymatch-rs/src/lib.rs` (vim-clap).

Modelling conventions:
* A text line is its UTF-8 byte sequence, `Str := List Nat`; byte offsets
  are list indices.  Rust's Unicode `to_lowercase` is modelled on the ASCII
  fragment (bytes 65..90 map to 97..122, everything else unchanged), where
  it is length-preserving; the spec documents the non-ASCII byte
  desynchronisation as an out-of-scope limitation.
* `f64` scores are modelled as exact rationals `ℚ`; the NaN value, which ℚ
  lacks, is modelled separately as `Option ℚ` where it matters (ranking
  comparator).
* A Rust panic is modelled by the `PRes.abort` constructor.
* The external single-term fuzzy scorer (`get_appropriate_matcher`, crate
  `filter`) is an out-of-scope collaborator and is passed as an abstract
  function `fzy : Str → Str → Option (ℚ × List Nat)`; the `line_splitter`
  argument only configures that collaborator and is absorbed into it.
-/

/-- A text line / query, as its byte sequence. -/
abbrev Str := List Nat

/-- ASCII fragment of Rust's `char::is_whitespace`, at byte level. -/
def isWs (b : Nat) : Bool :=
  b == 32 || b == 9 || b == 10 || b == 11 || b == 12 || b == 13

/-- ASCII fragment of Rust's `str::to_lowercase` (length-preserving there). -/
def toLowercase (s : Str) : Str :=
  s.map (fun b => if 65 ≤ b ∧ b ≤ 90 then b + 32 else b)

/-- Rust's `str::split_whitespace`: maximal runs of non-whitespace bytes. -/
def splitWhitespace (s : Str) : List Str :=
  (s.splitOnP isWs).filter (fun t => !t.isEmpty)

/-- Does `pat` match at the very start of `h`? (Anchored substring test.) -/
def headMatch : Str → Str → Bool
  | [], _ => true
  | _ :: _, [] => false
  | p :: ps, b :: bs => p == b && headMatch ps bs

/-- Does `pat` occur in `h` at byte offset `i`? -/
def occursAt (h pat : Str) (i : Nat) : Bool :=
  headMatch pat (h.drop i)

/-- Rust's `str::find` on byte strings: byte offset of the leftmost
occurrence of `pat`, if any. -/
def findSub (pat : Str) : Str → Option Nat
  | [] => if headMatch pat [] then some 0 else none
  | b :: t => if headMatch pat (b :: t) then some 0 else (findSub pat t).map (· + 1)

/-- `fn find_start_at(slice, at, pat)`: `slice[at..].find(pat).map(|i| at + i)`.
(In `substr_scorer` the cursor never exceeds the length, where `List.drop`
agrees with Rust slicing.) -/
def find_start_at (slice : Str) (start : Nat) (pat : Str) : Option Nat :=
  (findSub pat (slice.drop start)).map (fun i => start + i)

/-- The term loop of `substr_scorer`: for each whitespace-separated term of
the needle, lower-case it, search for it at-or-after the cursor `offset`;
on a hit at `idx` record the byte range `idx, …, idx+len-1` and move the
cursor to `idx + len`; on a miss fail the whole line. -/
def substrLoop (haystack : Str) : List Str → Nat → List Nat → Option (List Nat)
  | [], _, positions => some positions
  | sub :: rest, offset, positions =>
    let sub' := toLowercase sub
    match find_start_at haystack offset sub' with
    | some idx =>
        substrLoop haystack rest (idx + sub'.length)
          (positions ++ List.range' idx sub'.length)
    | none => none

/-- `fn substr_scorer(niddle, haystack) -> Option<(f64, Vec<usize>)>`. -/
def substr_scorer (niddle haystack : Str) : Option (ℚ × List Nat) :=
  let h := toLowercase haystack
  match substrLoop h (splitWhitespace niddle) 0 [] with
  | none => none
  | some [] => some (0, [])
  | some (p :: ps) =>
      let lastPos := (p :: ps).getLastD 0
      let matchLen : ℚ := ((lastPos + 1 - p : Nat) : ℚ)
      some (2 / ((p : ℚ) + 1) + 1 / ((lastPos : ℚ) + 1) - matchLen, p :: ps)

example : substr_scorer [97, 32, 98] [97, 98] = some (1/2, [0, 1]) := by
  with_unfolding_all decide
example : substr_scorer [] [97, 98] = some (0, []) := by decide
example : substr_scorer [65, 32, 66] [120, 97, 98] = some (2/2 + 1/3 - 2, [1, 2]) := by
  with_unfolding_all decide
example : substr_scorer [97, 98, 32, 97] [97, 98] = none := by decide

/-- Result of a computation that may abort: `abort` models a Rust panic. -/
inductive PRes (α : Type) where
  | abort : PRes α
  | ok : α → PRes α
deriving DecidableEq

/-- A UTF-8 continuation byte (`0b10xxxxxx`). -/
def isContinuationByte (b : Nat) : Bool := 128 ≤ b && b < 192

/-- Rust's `str::is_char_boundary(i)` at byte level. -/
def isCharBoundaryAt (s : Str) (i : Nat) : Bool :=
  if i == s.length then true
  else if s.length < i then false
  else !(isContinuationByte (s.getD i 0))

/-- The slice `&line[4..]` of `fuzzy_match`: panics unless byte offset 4 is
a char boundary of `line` (which requires `line.length ≥ 4`). -/
def byteSlice4 (line : Str) : PRes Str :=
  if isCharBoundaryAt line 4 then .ok (line.drop 4) else .abort

/-- One ranked row: `(line, score, indices)`. -/
abbrev Row := Str × ℚ × List Nat

/-- The per-line matcher closure of `fuzzy_match` (lines 79–92): a query
containing a space byte selects `substr_scorer` on the full line; otherwise
the external fuzzy scorer `fzy` runs — on `&line[4..]` with positions
shifted by 4 when `enable_icon`, on the untouched line otherwise. -/
def lineMatcher (fzy : Str → Str → Option (ℚ × List Nat)) (query : Str)
    (enable_icon : Bool) (line : Str) : PRes (Option (ℚ × List Nat)) :=
  if 32 ∈ query then
    .ok (substr_scorer query line)
  else if enable_icon then
    match byteSlice4 line with
    | .abort => .abort
    | .ok stripped =>
        .ok ((fzy stripped query).map (fun r => (r.1, r.2.map (· + 4))))
  else
    .ok (fzy line query)

/-- The `filter_map` pass of `fuzzy_match` (lines 94–97): apply the matcher
to every candidate, keep the matches, propagate a panic. -/
def scoreAll (fzy : Str → Str → Option (ℚ × List Nat)) (query : Str)
    (enable_icon : Bool) : List Str → PRes (List Row)
  | [] => .ok []
  | line :: rest =>
    match lineMatcher fzy query enable_icon line with
    | .abort => .abort
    | .ok none => scoreAll fzy query enable_icon rest
    | .ok (some (score, indices)) =>
      match scoreAll fzy query enable_icon rest with
      | .abort => .abort
      | .ok rows => .ok ((line, score, indices) :: rows)

/-- Row order used by the sort of line 99: descending by score (on NaN-free
scores, which ℚ models, the comparator `v2.partial_cmp(v1)` is this total
order). -/
def rankLe (a b : Row) : Prop := b.2.1 ≤ a.2.1

instance : DecidableRel rankLe := fun a b => inferInstanceAs (Decidable (b.2.1 ≤ a.2.1))

instance : IsTotal Row rankLe := ⟨fun a b => le_total b.2.1 a.2.1⟩

instance : IsTrans Row rankLe := ⟨fun _ _ _ h1 h2 => le_trans h2 h1⟩

/-- Scoring plus the sort of line 99 (`sort_unstable_by`, modelled by a
sort for the same order; tie order is unspecified in both). -/
def rankedRows (fzy : Str → Str → Option (ℚ × List Nat)) (query : Str)
    (enable_icon : Bool) (candidates : List Str) : PRes (List Row) :=
  match scoreAll fzy query enable_icon candidates with
  | .abort => .abort
  | .ok rows => .ok (List.insertionSort rankLe rows)

/-- Recursion underlying `truncate_long_matched_lines` (see there). -/
def truncateRows (shorten : Str → Str) (effWidth : Nat) :
    List Row → List Row × List (Str × Str)
  | [] => ([], [])
  | (line, score, indices) :: rest =>
    let (ls, m) := truncateRows shorten effWidth rest
    if effWidth < line.length then
      ((shorten line, score, indices) :: ls, (shorten line, line) :: m)
    else
      ((line, score, indices) :: ls, m)

/-- Modelled from the spec: `truncate_long_matched_lines` (crate `printer`)
is not under src/.  Per the spec (§4.4), the effective width is the render
width minus the skipped icon columns; a row whose text exceeds it is
shortened by the external strategy (abstracted as `shorten`) and an entry
from the shortened text to the original full text is recorded; other rows
pass through with no entry.  The collaborator's recomputation of positions
against the shortened text is not modelled. -/
def truncate_long_matched_lines (shorten : Str → Str) (rows : List Row)
    (winwidth : Nat) (skipped : Option Nat) : List Row × List (Str × Str) :=
  truncateRows shorten (winwidth - skipped.getD 0) rows

/-- `fn fuzzy_match(query, candidates, winwidth, enable_icon, line_splitter)`:
score and filter the candidates, sort descending by score, truncate
over-wide rows, and return the per-row indices, the display lines and the
truncation map.  `fzy` abstracts the external matcher picked from
`line_splitter`, `shorten` the external truncation strategy. -/
def fuzzy_match (fzy : Str → Str → Option (ℚ × List Nat)) (shorten : Str → Str)
    (query : Str) (candidates : List Str) (winwidth : Nat) (enable_icon : Bool) :
    PRes (List (List Nat) × List Str × List (Str × Str)) :=
  match rankedRows fzy query enable_icon candidates with
  | .abort => .abort
  | .ok ranked =>
      let skipped : Option Nat := if enable_icon then some 2 else none
      let (lines, truncated_map) :=
        truncate_long_matched_lines shorten ranked winwidth skipped
      .ok (lines.map (fun r => r.2.2), lines.map (fun r => r.1), truncated_map)

/-- An f64 as seen by the ranking comparator: `none` is NaN, `some q` a
numeric value. -/
abbrev F64 := Option ℚ

/-- Rust's `PartialOrd::partial_cmp` on f64: undefined (`none`) exactly
when an operand is NaN. -/
def cmpF64 (a b : F64) : Option Ordering :=
  match a, b with
  | some x, some y => some (compare x y)
  | _, _ => none

/-- The comparator `|(_, v1, _), (_, v2, _)| v2.partial_cmp(v1).unwrap()` of
line 99; a `none` result models the panic of `unwrap`. -/
def rankCompare (v1 v2 : F64) : Option Ordering := cmpF64 v2 v1

/-- C1: `fuzzy_match` picks the scoring strategy by query shape alone: a
query with a space byte is scored by `substr_scorer` on the full,
unstripped line whatever the icon flag; a space-free query is delegated to
the external single-term fuzzy scorer (on the untouched line when icons
are off, on the 4-byte-stripped line with shifted positions when they are
on). -/
theorem fuzzy_match_dispatch (fzy : Str → Str → Option (ℚ × List Nat))
    (query line : Str) (enable_icon : Bool) :
    (32 ∈ query →
      lineMatcher fzy query enable_icon line = .ok (substr_scorer query line)) ∧
    (32 ∉ query → enable_icon = false →
      lineMatcher fzy query enable_icon line = .ok (fzy line query)) ∧
    (32 ∉ query → enable_icon = true → isCharBoundaryAt line 4 = true →
      lineMatcher fzy query enable_icon line =
        .ok ((fzy (line.drop 4) query).map (fun r => (r.1, r.2.map (· + 4))))) := by
  refine ⟨fun h => by simp [lineMatcher, h], fun h hic => by simp [lineMatcher, h, hic],
    fun h hic hb => ?_⟩
  subst hic
  simp [lineMatcher, h, byteSlice4, hb]

/-- Witness for C1 at concrete inputs. -/
theorem fuzzy_match_dispatch_witness :
    lineMatcher (fun _ _ => some (7, [1])) [97, 32] true [120, 121] =
      .ok (substr_scorer [97, 32] [120, 121]) ∧
    lineMatcher (fun _ _ => some (7, [1])) [97] false [120, 121] =
      .ok (some (7, [1])) ∧
    lineMatcher (fun _ _ => some (7, [1])) [97] true [120, 121, 122, 123, 124] =
      .ok (some (7, [5])) := by
  refine ⟨(fuzzy_match_dispatch _ _ _ _).1 (by decide), ?_, ?_⟩
  · have h := (fuzzy_match_dispatch (fun _ _ => some (7, [1]))
      [97] [120, 121] false).2.1 (by decide) rfl
    simpa using h
  · have h := (fuzzy_match_dispatch (fun _ _ => some (7, [1]))
      [97] [120, 121, 122, 123, 124] true).2.2 (by decide) rfl (by decide)
    simpa using h

/-- C5: with icons enabled and a space-free query, the positions returned
for a line (whose first 4 bytes are an icon block, i.e. a char boundary
sits at byte 4) are exactly those the external scorer computes on the
4-byte-stripped line, each shifted forward by 4, so every returned
position is at least 4. -/
theorem icon_offset_shift (fzy : Str → Str → Option (ℚ × List Nat))
    (query line : Str) (score : ℚ) (ids : List Nat)
    (hq : 32 ∉ query) (hb : isCharBoundaryAt line 4 = true)
    (hf : fzy (line.drop 4) query = some (score, ids)) :
    lineMatcher fzy query true line = .ok (some (score, ids.map (· + 4))) ∧
    ∀ p ∈ ids.map (· + 4), 4 ≤ p := by
  constructor
  · simp [lineMatcher, hq, byteSlice4, hb, hf]
  · intro p hp
    simp only [List.mem_map] at hp
    obtain ⟨x, _, rfl⟩ := hp
    omega

/-- Witness for C5 at concrete inputs. -/
theorem icon_offset_shift_witness :
    lineMatcher (fun _ _ => some (1, [0, 2])) [99] true [32, 32, 32, 32, 99] =
      .ok (some (1, [0, 2].map (· + 4))) ∧
    ∀ p ∈ [0, 2].map (· + 4), 4 ≤ p :=
  icon_offset_shift (fun _ _ => some (1, [0, 2])) [99] [32, 32, 32, 32, 99] 1 [0, 2]
    (by decide) (by decide) rfl

/-- C7: a query with no whitespace-separated terms (the empty string or
all-whitespace) trivially matches any line in `substr_scorer`, with score
0 and no positions; in `fuzzy_match`, every line is thus kept as a match
by such a query whenever it reaches the substring scorer (it does as soon
as it holds a space byte — the empty-string query is instead routed to
the external out-of-scope scorer). -/
theorem empty_query_trivial_match (query line : Str)
    (h : splitWhitespace query = []) :
    substr_scorer query line = some (0, []) ∧
    ∀ (fzy : Str → Str → Option (ℚ × List Nat)) (enable_icon : Bool),
      32 ∈ query →
      lineMatcher fzy query enable_icon line = .ok (some (0, [])) := by
  have hs : substr_scorer query line = some (0, []) := by
    simp [substr_scorer, h, substrLoop]
  exact ⟨hs, fun fzy enable_icon hsp => by simp [lineMatcher, hsp, hs]⟩

/-- Witness for C7: the all-whitespace query `" "`. -/
theorem empty_query_trivial_match_witness :
    substr_scorer [32] [97, 98] = some (0, []) ∧
    lineMatcher (fun _ _ => none) [32] false [97, 98] = .ok (some (0, [])) :=
  ⟨(empty_query_trivial_match [32] [97, 98] (by decide)).1,
   (empty_query_trivial_match [32] [97, 98] (by decide)).2
     (fun _ _ => none) false (by decide)⟩

/-- C9: the ranking comparator of `fuzzy_match` (line 99) aborts (`unwrap`
of `None`) whenever an operand is the NaN score, and under the
precondition that no operand is NaN it always yields an ordering, so the
aborting branch is unreachable. -/
theorem nan_comparator_aborts :
    (∀ v1 v2 : F64, v1 = none ∨ v2 = none → rankCompare v1 v2 = none) ∧
    (∀ v1 v2 : F64, v1 ≠ none → v2 ≠ none → (rankCompare v1 v2).isSome = true) := by
  constructor
  · rintro v1 v2 (rfl | rfl)
    · cases v2 <;> rfl
    · cases v1 <;> rfl
  · intro v1 v2 h1 h2
    cases v1 with
    | none => exact absurd rfl h1
    | some x =>
      cases v2 with
      | none => exact absurd rfl h2
      | some y => rfl

/-- Witness for C9 at concrete scores. -/
theorem nan_comparator_aborts_witness :
    rankCompare none (some 1) = none ∧
    (rankCompare (some 2) (some 1)).isSome = true :=
  ⟨nan_comparator_aborts.1 none (some 1) (Or.inl rfl),
   nan_comparator_aborts.2 (some 2) (some 1) (Option.some_ne_none _)
     (Option.some_ne_none _)⟩

/-- C10: with icons on and a space-free query, the matcher of `fuzzy_match`
slices off exactly the first 4 bytes of the line; the slice succeeds
precisely under the char-boundary-at-4 precondition (which forces length
≥ 4), a line shorter than 4 bytes aborts instead of producing a result,
and with such a candidate (e.g. the empty string) `fuzzy_match` itself
aborts. -/
theorem icon_slice_partiality (fzy : Str → Str → Option (ℚ × List Nat))
    (query line : Str) (hq : 32 ∉ query) :
    (isCharBoundaryAt line 4 = true →
      byteSlice4 line = .ok (line.drop 4) ∧
      lineMatcher fzy query true line =
        .ok ((fzy (line.drop 4) query).map (fun r => (r.1, r.2.map (· + 4))))) ∧
    (line.length < 4 →
      byteSlice4 line = .abort ∧ lineMatcher fzy query true line = .abort) ∧
    (∀ (shorten : Str → Str) (cands : List Str) (winwidth : Nat),
      line.length < 4 →
      fuzzy_match fzy shorten query (line :: cands) winwidth true = .abort) := by
  have hshort : line.length < 4 → isCharBoundaryAt line 4 = false := by
    intro hl
    simp only [isCharBoundaryAt]
    have h1 : (4 == line.length) = false := by
      simp only [beq_eq_false_iff_ne, ne_eq]
      omega
    rw [h1]
    simp only [Bool.false_eq_true, if_false]
    rw [if_pos hl]
  refine ⟨fun hb => ⟨by simp [byteSlice4, hb], by simp [lineMatcher, hq, byteSlice4, hb]⟩,
    fun hl => ?_, fun shorten cands winwidth hl => ?_⟩
  · have hb := hshort hl
    constructor
    · simp [byteSlice4, hb]
    · simp [lineMatcher, hq, byteSlice4, hb]
  · have hb := hshort hl
    simp [fuzzy_match, rankedRows, scoreAll, lineMatcher, hq, byteSlice4, hb]

/-- Witness for C10 at concrete inputs. -/
theorem icon_slice_partiality_witness :
    (byteSlice4 [32, 32, 32, 32, 99] = .ok [99] ∧
      lineMatcher (fun _ _ => some (1, [0])) [99] true [32, 32, 32, 32, 99] =
        .ok (some (1, [4]))) ∧
    (byteSlice4 [] = .abort ∧
      lineMatcher (fun _ _ => some (1, [0])) [99] true [] = .abort) ∧
    fuzzy_match (fun _ _ => some (1, [0])) (fun s => s) [99] [[]] 10 true = .abort := by
  refine ⟨?_, ?_, ?_⟩
  · have h := (icon_slice_partiality (fun _ _ => some (1, [0])) [99]
      [32, 32, 32, 32, 99] (by decide)).1 (by decide)
    simpa using h
  · exact (icon_slice_partiality (fun _ _ => some (1, [0])) [99] [] (by decide)).2.1
      (by decide)
  · exact (icon_slice_partiality (fun _ _ => some (1, [0])) [99] [] (by decide)).2.2
      (fun s => s) [] 10 (by decide)

theorem truncateRows_fst (shorten : Str → Str) (effWidth : Nat) (rows : List Row) :
    (truncateRows shorten effWidth rows).1 =
      rows.map (fun r =>
        (if effWidth < r.1.length then shorten r.1 else r.1, r.2)) := by
  induction rows with
  | nil => rfl
  | cons r rest ih =>
    obtain ⟨line, score, indices⟩ := r
    by_cases h : effWidth < line.length <;> simp [truncateRows, h, ih]

theorem truncateRows_snd (shorten : Str → Str) (effWidth : Nat) (rows : List Row) :
    (truncateRows shorten effWidth rows).2 =
      (rows.filter (fun r => effWidth < r.1.length)).map
        (fun r => (shorten r.1, r.1)) := by
  induction rows with
  | nil => rfl
  | cons r rest ih =>
    obtain ⟨line, score, indices⟩ := r
    by_cases h : effWidth < line.length <;>
      simp [truncateRows, h, ih, List.filter_cons]

/-- C6: the truncation map of `fuzzy_match` is keyed by the shortened
display text itself: `fuzzy_match` returns verbatim the map built by the
truncation collaborator, each row whose text exceeds the effective width
is shortened and contributes the entry (shortened text, original full
text), and the map holds entries only for rows that were shortened. -/
theorem truncation_map_roundtrip (shorten : Str → Str) (rows : List Row)
    (winwidth : Nat) (skipped : Option Nat) :
    ((truncate_long_matched_lines shorten rows winwidth skipped).1 =
      rows.map (fun r =>
        (if winwidth - skipped.getD 0 < r.1.length then shorten r.1 else r.1,
         r.2))) ∧
    (∀ r ∈ rows, winwidth - skipped.getD 0 < r.1.length →
      (shorten r.1, r.1) ∈ (truncate_long_matched_lines shorten rows winwidth skipped).2) ∧
    (∀ kv ∈ (truncate_long_matched_lines shorten rows winwidth skipped).2,
      ∃ r ∈ rows, winwidth - skipped.getD 0 < r.1.length ∧
        kv = (shorten r.1, r.1)) ∧
    (∀ (fzy : Str → Str → Option (ℚ × List Nat)) (query : Str)
        (cands : List Str) (w : Nat) (icon : Bool) ranked,
      rankedRows fzy query icon cands = .ok ranked →
      fuzzy_match fzy shorten query cands w icon =
        .ok ((truncate_long_matched_lines shorten ranked w
                (if icon then some 2 else none)).1.map (fun r => r.2.2),
             (truncate_long_matched_lines shorten ranked w
                (if icon then some 2 else none)).1.map (fun r => r.1),
             (truncate_long_matched_lines shorten ranked w
                (if icon then some 2 else none)).2)) := by
  refine ⟨truncateRows_fst shorten _ rows, ?_, ?_, ?_⟩
  · intro r hr hlen
    rw [show (truncate_long_matched_lines shorten rows winwidth skipped).2 =
        (truncateRows shorten (winwidth - skipped.getD 0) rows).2 from rfl,
      truncateRows_snd]
    exact List.mem_map_of_mem _ (List.mem_filter.2 ⟨hr, by simpa using hlen⟩)
  · intro kv hkv
    rw [show (truncate_long_matched_lines shorten rows winwidth skipped).2 =
        (truncateRows shorten (winwidth - skipped.getD 0) rows).2 from rfl,
      truncateRows_snd] at hkv
    simp only [List.mem_map, List.mem_filter] at hkv
    obtain ⟨r, ⟨hr, hlen⟩, rfl⟩ := hkv
    exact ⟨r, hr, by simpa using hlen, rfl⟩
  · intro fzy query cands w icon ranked hrk
    simp [fuzzy_match, hrk, truncate_long_matched_lines]

/-- Witness for C6 at concrete inputs: the over-wide row `[97, 98, 99]`
is shortened to `[104]` and the map round-trips it. -/
theorem truncation_map_roundtrip_witness :
    ((truncate_long_matched_lines (fun _ => [104]) [([97, 98, 99], 1, [0])] 2 none).1 =
      [([97, 98, 99], 1, [0])].map (fun r =>
        (if 2 - (none : Option Nat).getD 0 < r.1.length then
          (fun _ => ([104] : Str)) r.1 else r.1, r.2))) ∧
    ([104], [97, 98, 99]) ∈
      (truncate_long_matched_lines (fun _ => [104]) [([97, 98, 99], 1, [0])] 2 none).2 := by
  constructor
  · exact (truncation_map_roundtrip (fun _ => [104]) [([97, 98, 99], 1, [0])] 2 none).1
  · exact (truncation_map_roundtrip (fun _ => [104]) [([97, 98, 99], 1, [0])] 2
      none).2.1 ([97, 98, 99], 1, [0]) (by simp) (by decide)

/-- C3: whenever `substr_scorer` matches with a non-empty position list,
the score is exactly `2/(first+1) + 1/(last+1) - (last - first + 1)` for
the first and last recorded byte offsets (f64 arithmetic modelled as exact
rationals). -/
theorem substr_scorer_score_formula (niddle haystack : Str) (score : ℚ)
    (p : Nat) (ps : List Nat)
    (h : substr_scorer niddle haystack = some (score, p :: ps)) :
    score = 2 / ((p : ℚ) + 1) + 1 / (((p :: ps).getLastD 0 : ℚ) + 1)
      - (((p :: ps).getLastD 0 + 1 - p : Nat) : ℚ) := by
  simp only [substr_scorer] at h
  cases hl : substrLoop (toLowercase haystack) (splitWhitespace niddle) 0 [] with
  | none => rw [hl] at h; exact absurd h (by simp)
  | some l =>
    rw [hl] at h
    cases l with
    | nil => simp at h
    | cons q qs =>
      simp only [Option.some.injEq, Prod.mk.injEq] at h
      obtain ⟨hs, hps⟩ := h
      obtain ⟨rfl, rfl⟩ : q = p ∧ qs = ps := by
        have h1 := congrArg List.head? hps
        have h2 := congrArg List.tail hps
        simp at h1 h2
        exact ⟨h1, h2⟩
      exact hs.symm

/-- Witness for C3: query `"a b"`, line `"ab"`, positions `[0, 1]`,
score `1/2`. -/
theorem substr_scorer_score_formula_witness :
    (1 / 2 : ℚ) = 2 / ((0 : Nat) + 1 : ℚ) + 1 / ((([0, 1] : List Nat).getLastD 0 : ℚ) + 1)
      - ((([0, 1] : List Nat).getLastD 0 + 1 - 0 : Nat) : ℚ) :=
  substr_scorer_score_formula [97, 32, 98] [97, 98] (1 / 2) 0 [1]
    (by with_unfolding_all decide)

/-- C4: the rows ranked by `fuzzy_match` are sorted in descending order of
score, and on candidates scored `3, -1, 5` the output order is the
candidates scored `5, 3, -1`. -/
theorem rankedRows_sorted_desc :
    (∀ (fzy : Str → Str → Option (ℚ × List Nat)) (query : Str)
        (enable_icon : Bool) (candidates : List Str) (rows : List Row),
      rankedRows fzy query enable_icon candidates = .ok rows →
      (rows.map (fun r => r.2.1)).Sorted (· ≥ ·)) ∧
    rankedRows
      (fun line _ =>
        if line = [97] then some (3, [0])
        else if line = [98] then some (-1, [0])
        else if line = [99] then some (5, [0]) else none)
      [120] false [[97], [98], [99]] =
      .ok [([99], 5, [0]), ([97], 3, [0]), ([98], -1, [0])] := by
  constructor
  · intro fzy query enable_icon candidates rows h
    unfold rankedRows at h
    cases hs : scoreAll fzy query enable_icon candidates with
    | abort => rw [hs] at h; exact absurd h (by simp)
    | ok scored =>
      rw [hs] at h
      injection h with h
      subst h
      have hsorted := List.sorted_insertionSort rankLe scored
      rw [List.Sorted, List.pairwise_map]
      exact hsorted
  · with_unfolding_all decide

/-- Witness for C4 at a concrete ranking. -/
theorem rankedRows_sorted_desc_witness :
    (([([97], 1, [0])] : List Row).map (fun r => r.2.1)).Sorted (· ≥ ·) :=
  rankedRows_sorted_desc.1 (fun _ _ => some (1, [0])) [120] false [[97]]
    [([97], 1, [0])] (by with_unfolding_all decide)

theorem occursAt_drop (h pat : Str) (c k : Nat) :
    occursAt (h.drop c) pat k = occursAt h pat (c + k) := by
  simp only [occursAt, List.drop_drop]

theorem findSub_some_occurs (pat : Str) :
    ∀ (h : Str) (i : Nat), findSub pat h = some i → occursAt h pat i = true
  | [], i, hf => by
    simp only [findSub] at hf
    split at hf
    · next hm => injection hf with hf; subst hf; exact hm
    · exact absurd hf (by simp)
  | b :: t, i, hf => by
    simp only [findSub] at hf
    split at hf
    · next hm => injection hf with hf; subst hf; exact hm
    · next hm =>
      rw [Option.map_eq_some'] at hf
      obtain ⟨j, hj, rfl⟩ := hf
      exact findSub_some_occurs pat t j hj

theorem findSub_min (pat : Str) :
    ∀ (h : Str) (i j : Nat), findSub pat h = some i →
      occursAt h pat j = true → i ≤ j
  | [], i, j, hf, _ => by
    simp only [findSub] at hf
    split at hf
    · injection hf with hf; omega
    · exact absurd hf (by simp)
  | b :: t, i, j, hf, ho => by
    simp only [findSub] at hf
    split at hf
    · injection hf with hf; omega
    · next hm =>
      rw [Option.map_eq_some'] at hf
      obtain ⟨i', hi', rfl⟩ := hf
      cases j with
      | zero =>
        have hm' : headMatch pat (b :: t) = true := ho
        exact absurd hm' hm
      | succ j' =>
        have := findSub_min pat t i' j' hi' ho
        omega

theorem findSub_none (pat : Str) :
    ∀ (h : Str) (j : Nat), findSub pat h = none → occursAt h pat j = false
  | [], j, hf => by
    simp only [findSub] at hf
    split at hf
    · exact absurd hf (by simp)
    · next hm =>
      have hm' : headMatch pat [] = false := by
        cases hh : headMatch pat [] with
        | false => rfl
        | true => exact absurd hh hm
      simp only [occursAt, List.drop_nil]
      exact hm'
  | b :: t, j, hf => by
    simp only [findSub] at hf
    split at hf
    · exact absurd hf (by simp)
    · next hm =>
      rw [Option.map_eq_none'] at hf
      cases j with
      | zero =>
        cases hh : headMatch pat (b :: t) with
        | false => exact hh
        | true => exact absurd hh hm
      | succ j' => exact findSub_none pat t j' hf

theorem find_start_at_some (slice : Str) (start : Nat) (pat : Str) (i : Nat)
    (hf : find_start_at slice start pat = some i) :
    start ≤ i ∧ occursAt slice pat i = true ∧
      ∀ j, start ≤ j → occursAt slice pat j = true → i ≤ j := by
  simp only [find_start_at, Option.map_eq_some'] at hf
  obtain ⟨k, hk, rfl⟩ := hf
  refine ⟨Nat.le_add_right _ _, ?_, ?_⟩
  · have := findSub_some_occurs pat _ k hk
    rwa [occursAt_drop] at this
  · intro j hj ho
    obtain ⟨k', rfl⟩ := Nat.exists_eq_add_of_le hj
    have := findSub_min pat _ k k' hk (by rwa [occursAt_drop])
    omega

theorem find_start_at_none (slice : Str) (start : Nat) (pat : Str)
    (hf : find_start_at slice start pat = none) :
    ∀ j, start ≤ j → occursAt slice pat j = false := by
  simp only [find_start_at, Option.map_eq_none'] at hf
  intro j hj
  obtain ⟨k, rfl⟩ := Nat.exists_eq_add_of_le hj
  have := findSub_none pat _ k hf
  rwa [occursAt_drop] at this

/-- A monotonic assignment of the terms `ts` starting at cursor `c`: each
term, in order, occurs lower-cased at an index at-or-after the cursor,
which then advances one past that match. -/
def MonoMatch (h : Str) : Nat → List Str → Prop
  | _, [] => True
  | c, t :: ts =>
    ∃ i, c ≤ i ∧ occursAt h (toLowercase t) i = true ∧
      MonoMatch h (i + (toLowercase t).length) ts

theorem MonoMatch.mono (h : Str) :
    ∀ (ts : List Str) (c c' : Nat), MonoMatch h c ts → c' ≤ c → MonoMatch h c' ts
  | [], _, _, _, _ => trivial
  | t :: ts, c, c', hm, hle => by
    simp only [MonoMatch] at hm ⊢
    obtain ⟨i, hci, ho, hrest⟩ := hm
    exact ⟨i, le_trans hle hci, ho, hrest⟩

theorem substrLoop_isSome_of_mono (h : Str) :
    ∀ (ts : List Str) (c : Nat) (acc : List Nat),
      MonoMatch h c ts → (substrLoop h ts c acc).isSome = true
  | [], _, _, _ => rfl
  | t :: ts, c, acc, hm => by
    simp only [MonoMatch] at hm
    obtain ⟨i, hci, ho, hrest⟩ := hm
    simp only [substrLoop]
    cases hf : find_start_at h c (toLowercase t) with
    | none =>
      have := find_start_at_none h c _ hf i hci
      rw [ho] at this
      exact absurd this (by simp)
    | some idx =>
      have hspec := find_start_at_some h c _ idx hf
      have hle : idx ≤ i := hspec.2.2 i hci ho
      have hm' : MonoMatch h (idx + (toLowercase t).length) ts :=
        MonoMatch.mono h ts _ _ hrest (by omega)
      exact substrLoop_isSome_of_mono h ts _ _ hm'

theorem substrLoop_mono_of_some (h : Str) :
    ∀ (ts : List Str) (c : Nat) (acc ps : List Nat),
      substrLoop h ts c acc = some ps → MonoMatch h c ts
  | [], _, _, _, _ => trivial
  | t :: ts, c, acc, ps, hl => by
    simp only [substrLoop] at hl
    cases hf : find_start_at h c (toLowercase t) with
    | none => rw [hf] at hl; exact absurd hl (by simp)
    | some idx =>
      rw [hf] at hl
      have hspec := find_start_at_some h c _ idx hf
      have hrest := substrLoop_mono_of_some h ts _ _ ps hl
      simp only [MonoMatch]
      exact ⟨idx, hspec.1, hspec.2.1, hrest⟩

/-- C2: `substr_scorer` succeeds exactly when the lower-cased terms admit a
strictly left-to-right, non-backtracking assignment (each term at-or-after
the cursor left by its predecessor); in particular, for the query
`"ab a"` on the line `"ab"` every term does occur in the line (a
non-monotonic assignment exists) yet the scorer returns `none`. -/
theorem substr_scorer_monotonic :
    (∀ niddle haystack : Str,
      (substr_scorer niddle haystack).isSome = true ↔
        MonoMatch (toLowercase haystack) 0 (splitWhitespace niddle)) ∧
    (substr_scorer [97, 98, 32, 97] [97, 98] = none ∧
      occursAt (toLowercase [97, 98]) (toLowercase [97, 98]) 0 = true ∧
      occursAt (toLowercase [97, 98]) (toLowercase [97]) 0 = true) := by
  constructor
  · intro niddle haystack
    constructor
    · intro hs
      simp only [substr_scorer] at hs
      cases hl : substrLoop (toLowercase haystack) (splitWhitespace niddle) 0 [] with
      | none => rw [hl] at hs; simp at hs
      | some l => exact substrLoop_mono_of_some _ _ _ _ _ hl
    · intro hm
      have hsome := substrLoop_isSome_of_mono (toLowercase haystack)
        (splitWhitespace niddle) 0 [] hm
      simp only [substr_scorer]
      cases hl : substrLoop (toLowercase haystack) (splitWhitespace niddle) 0 [] with
      | none => rw [hl] at hsome; simp at hsome
      | some l => cases l <;> simp
  · exact ⟨by decide, by decide, by decide⟩

/-- Witness for C2: the monotonic direction at a concrete success. -/
theorem substr_scorer_monotonic_witness :
    (substr_scorer [97, 32, 98] [97, 98]).isSome = true :=
  (substr_scorer_monotonic.1 [97, 32, 98] [97, 98]).mpr
    ⟨0, Nat.le_refl 0, by decide, 1, by decide, by decide, trivial⟩

/-- The blocks recorded by a successful scan from cursor `c`: term `k`
(lower-cased) occurs at index `idxs k`, at-or-after the cursor left by
term `k-1`, which then advances one past the match. -/
def BlocksFrom (h : Str) : Nat → List Nat → List Str → Prop
  | _, [], [] => True
  | c, i :: is, t :: ts =>
      c ≤ i ∧ occursAt h (toLowercase t) i = true ∧
      BlocksFrom h (i + (toLowercase t).length) is ts
  | _, _ :: _, [] => False
  | _, [], _ :: _ => False

theorem substrLoop_blocks (h : Str) :
    ∀ (ts : List Str) (c : Nat) (acc ps : List Nat),
      substrLoop h ts c acc = some ps →
      ∃ idxs : List Nat, BlocksFrom h c idxs ts ∧
        ps = acc ++ (idxs.zip ts).flatMap
          (fun p => List.range' p.1 (toLowercase p.2).length)
  | [], c, acc, ps, hl => by
    simp only [substrLoop, Option.some.injEq] at hl
    exact ⟨[], trivial, by simp [hl.symm]⟩
  | t :: ts, c, acc, ps, hl => by
    simp only [substrLoop] at hl
    cases hf : find_start_at h c (toLowercase t) with
    | none => rw [hf] at hl; exact absurd hl (by simp)
    | some idx =>
      rw [hf] at hl
      obtain ⟨idxs, hbl, hps⟩ := substrLoop_blocks h ts _ _ ps hl
      have hspec := find_start_at_some h c _ idx hf
      refine ⟨idx :: idxs, ?_, ?_⟩
      · simp only [BlocksFrom]
        exact ⟨hspec.1, hspec.2.1, hbl⟩
      · rw [hps, List.zip_cons_cons, List.flatMap_cons, List.append_assoc]

theorem BlocksFrom.flat_sorted (h : Str) :
    ∀ (ts : List Str) (c : Nat) (idxs : List Nat),
      BlocksFrom h c idxs ts →
      ((idxs.zip ts).flatMap
          (fun p => List.range' p.1 (toLowercase p.2).length)).Sorted (· < ·) ∧
      ∀ x ∈ (idxs.zip ts).flatMap
          (fun p => List.range' p.1 (toLowercase p.2).length), c ≤ x
  | [], _, [], _ => by simp
  | [], _, _ :: _, hb => hb.elim
  | _ :: _, _, [], hb => hb.elim
  | t :: ts, c, i :: is, hb => by
    simp only [BlocksFrom] at hb
    obtain ⟨hci, ho, hrest⟩ := hb
    obtain ⟨ihs, ihb⟩ := BlocksFrom.flat_sorted h ts _ is hrest
    constructor
    · simp only [List.zip_cons_cons, List.flatMap_cons]
      rw [List.Sorted, List.pairwise_append]
      refine ⟨List.pairwise_lt_range' _ _, ihs, ?_⟩
      intro a ha b hb'
      rw [List.mem_range'_1] at ha
      have := ihb b hb'
      omega
    · intro x hx
      simp only [List.zip_cons_cons, List.flatMap_cons, List.mem_append] at hx
      rcases hx with hx | hx
      · rw [List.mem_range'_1] at hx; omega
      · have := ihb x hx; omega

/-- C8: whenever `substr_scorer` matches, its position list is the
concatenation, term by term, of the contiguous ranges
`idx, …, idx + len(term) - 1` of the recorded match indices, and over the
whole list the offsets are strictly ascending (hence duplicate-free). -/
theorem substr_scorer_positions_invariant (niddle haystack : Str)
    (score : ℚ) (ps : List Nat)
    (h : substr_scorer niddle haystack = some (score, ps)) :
    ∃ idxs : List Nat,
      BlocksFrom (toLowercase haystack) 0 idxs (splitWhitespace niddle) ∧
      ps = (idxs.zip (splitWhitespace niddle)).flatMap
        (fun p => List.range' p.1 (toLowercase p.2).length) ∧
      ps.Sorted (· < ·) := by
  have hloop : substrLoop (toLowercase haystack) (splitWhitespace niddle) 0 []
      = some ps := by
    simp only [substr_scorer] at h
    cases hl : substrLoop (toLowercase haystack) (splitWhitespace niddle) 0 [] with
    | none => rw [hl] at h; simp at h
    | some l =>
      rw [hl] at h
      cases l with
      | nil =>
        simp only [Option.some.injEq, Prod.mk.injEq] at h
        rw [← h.2]
      | cons q qs =>
        simp only [Option.some.injEq, Prod.mk.injEq] at h
        rw [← h.2]
  obtain ⟨idxs, hbl, hps⟩ := substrLoop_blocks _ _ _ _ _ hloop
  rw [List.nil_append] at hps
  refine ⟨idxs, hbl, hps, ?_⟩
  rw [hps]
  exact (BlocksFrom.flat_sorted _ _ _ _ hbl).1

/-- Witness for C8 at query `"a b"`, line `"ab"`. -/
theorem substr_scorer_positions_invariant_witness :
    ∃ idxs : List Nat,
      BlocksFrom (toLowercase [97, 98]) 0 idxs (splitWhitespace [97, 32, 98]) ∧
      ([0, 1] : List Nat) = (idxs.zip (splitWhitespace [97, 32, 98])).flatMap
        (fun p => List.range' p.1 (toLowercase p.2).length) ∧
      ([0, 1] : List Nat).Sorted (· < ·) :=
  substr_scorer_positions_invariant [97, 32, 98] [97, 98] (1 / 2) [0, 1]
    (by with_unfolding_all decide)
